import Mathlib

/-!
# Verification of the PDHG / LM-SPDHG reconstruction engines

A shallow embedding, over exact real arithmetic, of the numerical core of
`03_lm_spdhg.ipynb`: the proximal operators, the step-size calculation, the
deterministic PDHG loop body and the stochastic LM-SPDHG inner-loop body.
Linear operators (the PET forward model and the finite-difference gradient,
both supplied by the external `parallelproj` library) are modelled as
matrices over `ℝ`: `apply` is `Matrix.mulVec`, `adjoint` is `mulVec` by the
transpose.  Images and measurement vectors are functions `Fin n → ℝ`; the
gradient operator produces one image-shaped array per spatial direction
(`Fin 3`), matching the `(3,) + img_shape` output of
`FiniteForwardDifference`, and its adjoint sums the per-direction adjoints.
-/

/-! ## Proximal operators -/

/-- The Poisson data conjugate prox as the code writes it in both engines
(`y_plus = 0.5 * (y_plus + 1 - xp.sqrt((y_plus - 1) ** 2 + 4 * S * d))`),
applied to one scalar dual value `y` with step entry `S` and count entry `d`. -/
noncomputable def poissonProxCode (y S d : ℝ) : ℝ :=
  0.5 * (y + 1 - Real.sqrt ((y - 1) ^ 2 + 4 * S * d))

/-- Modelled from the spec's words, for comparison with the code:
`prox(y) = 0.5·(y + 1 − sqrt((y−1)² + 4·S·d))`. -/
noncomputable def poissonProxSpec (y S d : ℝ) : ℝ :=
  0.5 * (y + 1 - Real.sqrt ((y - 1) ^ 2 + 4 * S * d))

/-- The TV conjugate prox as the code writes it in both engines, restricted to
one voxel's gradient-vector group (the code's `axis=0` norm makes the update
act group-by-group).  `c` is the pre-division candidate `w + S_G·∇x` at the
voxel; the code computes `w_plus = c / β`, `denom = ‖w_plus‖₂`,
`w_plus /= xp.where(denom < 1, 1, denom)`, `w_plus *= β`. -/
noncomputable def tvProxCode (β : ℝ) (c : Fin 3 → ℝ) : Fin 3 → ℝ :=
  let wp := fun kk => c kk / β
  let denom := Real.sqrt (∑ kk, wp kk ^ 2)
  fun kk => wp kk / (if denom < 1 then 1 else denom) * β

/-- `(y−1)² ≤ (y−1)² + 4·S·d` under the square root, so the prox output never
exceeds `1` when `S, d ≥ 0`. -/
lemma poissonProxCode_le_one (y S d : ℝ) (hS : 0 ≤ S) (hd : 0 ≤ d) :
    poissonProxCode y S d ≤ 1 := by
  have h4 : 0 ≤ 4 * S * d := by positivity
  have h1 : Real.sqrt ((y - 1) ^ 2) ≤ Real.sqrt ((y - 1) ^ 2 + 4 * S * d) :=
    Real.sqrt_le_sqrt (by linarith)
  have h2 : y - 1 ≤ Real.sqrt ((y - 1) ^ 2 + 4 * S * d) := by
    calc y - 1 ≤ |y - 1| := le_abs_self _
      _ = Real.sqrt ((y - 1) ^ 2) := (Real.sqrt_sq_eq_abs _).symm
      _ ≤ _ := h1
  unfold poissonProxCode
  linarith

/-- C6 counterexample: with `S = 0` the prox is not the identity at `y = 3`
(and count `d = 0`): the code clamps it to `1`. -/
theorem poisson_prox_zero_step_not_identity : poissonProxCode 3 0 0 ≠ 3 := by
  unfold poissonProxCode
  rw [show ((3 : ℝ) - 1) ^ 2 + 4 * 0 * 0 = 2 ^ 2 by ring,
    Real.sqrt_sq (by norm_num : (0 : ℝ) ≤ 2)]
  norm_num

/-- C6 (amended): with step `S = 0` the Poisson data conjugate prox reduces to
`y ↦ min y 1` for every count `d`: it is the identity exactly on dual values
`y ≤ 1` and clamps larger values to `1`. -/
theorem poisson_prox_zero_step_eq_min (y d : ℝ) : poissonProxCode y 0 d = min y 1 := by
  unfold poissonProxCode
  rw [show (y - 1) ^ 2 + 4 * 0 * d = (y - 1) ^ 2 by ring, Real.sqrt_sq_eq_abs]
  rcases le_total y 1 with h | h
  · rw [abs_of_nonpos (by linarith), min_eq_left h]; ring
  · rw [abs_of_nonneg (by linarith), min_eq_right h]; ring

/-- C7: the TV conjugate prox leaves every voxel group whose Euclidean norm is
at most `β` unchanged (for the code's positive `β`); norm-zero groups fall in
the `denom < 1` branch and are divided by `1`, never by their norm. -/
theorem tv_prox_identity_inside_ball (β : ℝ) (c : Fin 3 → ℝ) (hβ : 0 < β)
    (hn : Real.sqrt (∑ kk, c kk ^ 2) ≤ β) : ∀ kk, tvProxCode β c kk = c kk := by
  intro kk
  have hβ0 : β ≠ 0 := ne_of_gt hβ
  have hsum : (∑ k2, (c k2 / β) ^ 2) = (∑ k2, c k2 ^ 2) / β ^ 2 := by
    rw [Finset.sum_div]
    refine Finset.sum_congr rfl fun k2 _ => ?_
    rw [div_pow]
  have hscale : Real.sqrt (∑ k2, (c k2 / β) ^ 2) = Real.sqrt (∑ k2, c k2 ^ 2) / β := by
    rw [hsum, Real.sqrt_div (by positivity) (β ^ 2), Real.sqrt_sq hβ.le]
  have hd : Real.sqrt (∑ k2, (c k2 / β) ^ 2) ≤ 1 := by
    rw [hscale]
    exact (div_le_one hβ).mpr hn
  unfold tvProxCode
  by_cases hlt : Real.sqrt (∑ k2, (c k2 / β) ^ 2) < 1
  · simp only [hlt, if_true]
    field_simp
  · have hone : Real.sqrt (∑ k2, (c k2 / β) ^ 2) = 1 := le_antisymm hd (not_lt.mp hlt)
    simp only [hlt, if_false, hone]
    field_simp

/-- C7 witness: the zero group has norm `0 ≤ 1` and is left unchanged. -/
theorem tv_prox_identity_witness :
    (0 : ℝ) < 1 ∧ Real.sqrt (∑ _kk : Fin 3, ((0 : ℝ)) ^ 2) ≤ 1 ∧
      tvProxCode 1 (fun _ => 0) 0 = 0 :=
  ⟨by norm_num, by simp,
    tv_prox_identity_inside_ball 1 (fun _ => 0) (by norm_num) (by simp) 0⟩

/-! ## Step-size calculation -/

/-- The minimum positive entry of a sensitivity array, the code's
`xp.min(tmp[tmp > 0])` (`0` stands for the crash the code would raise when no
entry is positive). -/
noncomputable def minPos {m : ℕ} (v : Fin m → ℝ) : ℝ :=
  if h : (Finset.univ.filter fun j => 0 < v j).Nonempty then
    (Finset.univ.filter fun j => 0 < v j).inf' h v
  else 0

/-- The code's `xp.where(tmp == 0, xp.min(tmp[tmp > 0]), tmp)`: zero entries
of a sensitivity array are replaced by its minimum positive entry. -/
noncomputable def replaceZeros {m : ℕ} (v : Fin m → ℝ) : Fin m → ℝ :=
  fun j => if v j = 0 then minPos v else v j

/-- PDHG dual step for the data operator, from
`tmp = pet_lin_op(ones); tmp = xp.where(tmp == 0, min(tmp[tmp>0]), tmp);
S_A = gamma * rho / tmp`. -/
noncomputable def S_A_calc {m n : ℕ} (A : Matrix (Fin m) (Fin n) ℝ) (γ ρ : ℝ) :
    Fin m → ℝ :=
  fun j => γ * ρ / replaceZeros (A.mulVec fun _ => 1) j

/-- PDHG primal step from the data operator, from
`T_A = (1 / gamma) * rho / pet_lin_op.adjoint(ones)` — note: no zero
replacement is applied to the adjoint sensitivities. -/
noncomputable def T_A_calc {m n : ℕ} (A : Matrix (Fin m) (Fin n) ℝ) (γ ρ : ℝ) :
    Fin n → ℝ :=
  fun i => (1 / γ) * ρ / (A.transpose.mulVec fun _ => 1) i

/-- The combined PDHG primal step, from
`T = xp.where(T_A < T_G, T_A, xp.full(shape, T_G))`. -/
noncomputable def T_calc {n : ℕ} (T_A : Fin n → ℝ) (T_G : ℝ) : Fin n → ℝ :=
  fun i => if T_A i < T_G then T_A i else T_G

/-- LM-SPDHG dual step for data subset `k`, from
`tmp = lm_op(ones_img); tmp = xp.where(tmp == 0, min(tmp[tmp>0]), tmp);
S_A_lm.append(gamma * rho / tmp)`. -/
noncomputable def S_A_lm_calc {ns n : ℕ} {me : Fin ns → ℕ}
    (A : (k : Fin ns) → Matrix (Fin (me k)) (Fin n) ℝ) (γ ρ : ℝ) (k : Fin ns) :
    Fin (me k) → ℝ :=
  fun e => γ * ρ / replaceZeros ((A k).mulVec fun _ => 1) e

/-- The LM-SPDHG per-subset primal steps, rows `0..ns-1` of the code's
`T_A_lm` array (`T_A_lm[k] = (rho * p_a / gamma) / lm_op[k].adjoint(1 / mu[sl])`,
again with no zero replacement), and its last row `T_A_lm[-1] = T_G`. -/
noncomputable def T_A_lm_calc {ns n : ℕ} {me : Fin ns → ℕ}
    (A : (k : Fin ns) → Matrix (Fin (me k)) (Fin n) ℝ)
    (μ : (k : Fin ns) → Fin (me k) → ℝ) (γ ρ pa T_G : ℝ) (k : Fin (ns + 1)) :
    Fin n → ℝ :=
  if h : (k : ℕ) < ns then
    fun i => (ρ * pa / γ) / ((A ⟨k, h⟩).transpose.mulVec fun e => 1 / μ ⟨k, h⟩ e) i
  else
    fun _ => T_G

/-- The combined LM-SPDHG primal step, the code's `T_lm = xp.min(T_A_lm, axis=0)`. -/
noncomputable def T_lm_calc {ns n : ℕ} {me : Fin ns → ℕ}
    (A : (k : Fin ns) → Matrix (Fin (me k)) (Fin n) ℝ)
    (μ : (k : Fin ns) → Fin (me k) → ℝ) (γ ρ pa T_G : ℝ) : Fin n → ℝ :=
  fun i => Finset.univ.inf' Finset.univ_nonempty
    fun k : Fin (ns + 1) => T_A_lm_calc A μ γ ρ pa T_G k i

/-- C2: in each engine the combined primal step is the pointwise minimum of
the contributing steps: the PDHG `T` is at most `T_A` and at most `T_G` at
every voxel, and the LM-SPDHG `T_lm` is at most every row of `T_A_lm`
(the per-subset steps and, through the last row, `T_G`) at every voxel. -/
theorem combined_primal_step_is_pointwise_min :
    (∀ (n : ℕ) (T_A : Fin n → ℝ) (T_G : ℝ) (i : Fin n),
      T_calc T_A T_G i ≤ T_A i ∧ T_calc T_A T_G i ≤ T_G) ∧
    (∀ (ns n : ℕ) (me : Fin ns → ℕ)
      (A : (k : Fin ns) → Matrix (Fin (me k)) (Fin n) ℝ)
      (μ : (k : Fin ns) → Fin (me k) → ℝ) (γ ρ pa T_G : ℝ)
      (k : Fin (ns + 1)) (i : Fin n),
      T_lm_calc A μ γ ρ pa T_G i ≤ T_A_lm_calc A μ γ ρ pa T_G k i) ∧
    (∀ (ns n : ℕ) (me : Fin ns → ℕ)
      (A : (k : Fin ns) → Matrix (Fin (me k)) (Fin n) ℝ)
      (μ : (k : Fin ns) → Fin (me k) → ℝ) (γ ρ pa T_G : ℝ) (i : Fin n),
      T_lm_calc A μ γ ρ pa T_G i ≤ T_G) := by
  refine ⟨fun n T_A T_G i => ?_, fun ns n me A μ γ ρ pa T_G k i => ?_,
    fun ns n me A μ γ ρ pa T_G i => ?_⟩
  · unfold T_calc
    rcases lt_or_le (T_A i) T_G with h | h
    · rw [if_pos h]; exact ⟨le_refl _, h.le⟩
    · rw [if_neg (not_lt.mpr h)]; exact ⟨h, le_refl _⟩
  · exact Finset.inf'_le _ (Finset.mem_univ k)
  · have hlast : T_A_lm_calc A μ γ ρ pa T_G (Fin.last ns) i = T_G := by
      unfold T_A_lm_calc
      rw [dif_neg (by simp)]
    calc T_lm_calc A μ γ ρ pa T_G i ≤ T_A_lm_calc A μ γ ρ pa T_G (Fin.last ns) i :=
        Finset.inf'_le _ (Finset.mem_univ _)
      _ = T_G := hlast

/-- The minimum positive entry is itself positive once a positive entry exists. -/
lemma minPos_pos {m : ℕ} (v : Fin m → ℝ) (hex : ∃ j, 0 < v j) : 0 < minPos v := by
  obtain ⟨j, hj⟩ := hex
  have hne : (Finset.univ.filter fun j2 => 0 < v j2).Nonempty :=
    ⟨j, by simp [hj]⟩
  rw [minPos, dif_pos hne]
  obtain ⟨i, hi, hieq⟩ := Finset.exists_mem_eq_inf' hne v
  rw [hieq]
  exact (Finset.mem_filter.mp hi).2

/-- After zero replacement, a non-negative sensitivity array with at least one
positive entry is strictly positive everywhere. -/
lemma replaceZeros_pos {m : ℕ} (v : Fin m → ℝ) (hnn : ∀ j, 0 ≤ v j)
    (hex : ∃ j, 0 < v j) (j : Fin m) : 0 < replaceZeros v j := by
  unfold replaceZeros
  by_cases h : v j = 0
  · rw [if_pos h]; exact minPos_pos v hex
  · rw [if_neg h]; exact lt_of_le_of_ne (hnn j) (Ne.symm h)

/-- C5 counterexample: the primal-step calculation applies no zero
replacement to the adjoint sensitivities.  For the operator
`cexA = [[1, 0]]` (one measurement, two voxels, the second voxel unseen by
any ray) the adjoint of ones is `(1, 0)`, and the second entry of `T_A`
is a division by zero — `inf` in the code's floating point, `0` (hence not
strictly positive) in this exact-arithmetic model. -/
noncomputable def cexA : Matrix (Fin 1) (Fin 2) ℝ :=
  Matrix.of fun _ j => if j = 0 then 1 else 0

/-- C5 counterexample theorem: the entry of `T_A` at the zero-sensitivity
voxel is not strictly positive, refuting the claim that every entry of every
primal step is finite and strictly positive. -/
theorem adjoint_zero_sensitivity_T_not_positive :
    ¬ 0 < T_A_calc cexA 1 1 1 := by
  have h : T_A_calc cexA 1 1 1 = 0 := by
    have hden : (cexA.transpose.mulVec fun _ => (1 : ℝ)) 1 = 0 := by
      simp [cexA, Matrix.mulVec, Matrix.transpose, Matrix.dotProduct]
    unfold T_A_calc
    rw [hden, div_zero]
  rw [h]
  exact lt_irrefl 0

/-- C5 (amended): zero sensitivities are replaced by the minimum positive
observed value only in the forward direction — each engine's dual steps
(`S_A`, `S_A_lm[k]`) are strictly positive whenever `γ, ρ > 0` and the
operator applied to ones is non-negative with at least one positive entry.
The adjoint sensitivities (`A.adjoint(1)` in PDHG and `A_k.adjoint(1/μ)` in
LM-SPDHG) are used with no replacement, so the primal steps `T_A` and each
data row of `T_A_lm` are strictly positive only when every adjoint
sensitivity entry is strictly positive (with the code's positive `γ, ρ, p_a`). -/
theorem step_size_positivity_amended :
    (∀ (m n : ℕ) (A : Matrix (Fin m) (Fin n) ℝ) (γ ρ : ℝ), 0 < γ → 0 < ρ →
      (∀ j, 0 ≤ A.mulVec (fun _ => 1) j) → (∃ j, 0 < A.mulVec (fun _ => 1) j) →
      ∀ j, 0 < S_A_calc A γ ρ j) ∧
    (∀ (ns n : ℕ) (me : Fin ns → ℕ)
      (A : (k : Fin ns) → Matrix (Fin (me k)) (Fin n) ℝ) (γ ρ : ℝ) (k : Fin ns),
      0 < γ → 0 < ρ →
      (∀ e, 0 ≤ (A k).mulVec (fun _ => 1) e) →
      (∃ e, 0 < (A k).mulVec (fun _ => 1) e) →
      ∀ e, 0 < S_A_lm_calc A γ ρ k e) ∧
    (∀ (m n : ℕ) (A : Matrix (Fin m) (Fin n) ℝ) (γ ρ : ℝ), 0 < γ → 0 < ρ →
      (∀ i, 0 < A.transpose.mulVec (fun _ => 1) i) →
      ∀ i, 0 < T_A_calc A γ ρ i) ∧
    (∀ (ns n : ℕ) (me : Fin ns → ℕ)
      (A : (k : Fin ns) → Matrix (Fin (me k)) (Fin n) ℝ)
      (μ : (k : Fin ns) → Fin (me k) → ℝ) (γ ρ pa T_G : ℝ)
      (k : Fin (ns + 1)) (h : (k : ℕ) < ns),
      0 < γ → 0 < ρ → 0 < pa →
      (∀ i, 0 < ((A ⟨k, h⟩).transpose.mulVec fun e => 1 / μ ⟨k, h⟩ e) i) →
      ∀ i, 0 < T_A_lm_calc A μ γ ρ pa T_G k i) := by
  refine ⟨fun m n A γ ρ hγ hρ hnn hex j => ?_,
    fun ns n me A γ ρ k hγ hρ hnn hex e => ?_,
    fun m n A γ ρ hγ hρ hpos i => ?_,
    fun ns n me A μ γ ρ pa T_G k h hγ hρ hpa hpos i => ?_⟩
  · exact div_pos (mul_pos hγ hρ) (replaceZeros_pos _ hnn hex j)
  · exact div_pos (mul_pos hγ hρ) (replaceZeros_pos _ hnn hex e)
  · exact div_pos (mul_pos (by positivity) hρ) (hpos i)
  · unfold T_A_lm_calc
    rw [dif_pos h]
    exact div_pos (by positivity) (hpos i)

/-! ## The PDHG engine (deterministic, full batch) -/

/-- The gradient operator applied to an image: one image-shaped array per
spatial direction, the shape of `op_G(x)`. -/
noncomputable def gApply {n : ℕ} (G : Fin 3 → Matrix (Fin n) (Fin n) ℝ)
    (x : Fin n → ℝ) : Fin 3 → Fin n → ℝ :=
  fun kk => (G kk).mulVec x

/-- The gradient operator's adjoint (`op_G.adjoint`): the sum of the
per-direction adjoints. -/
noncomputable def gAdjoint {n : ℕ} (G : Fin 3 → Matrix (Fin n) (Fin n) ℝ)
    (w : Fin 3 → Fin n → ℝ) : Fin n → ℝ :=
  fun i => ∑ kk, (G kk).transpose.mulVec (w kk) i

/-- The full-batch PDHG state `(x, y, w, z, zbar)`. -/
structure PDHGState (n m : ℕ) where
  x : Fin n → ℝ
  y : Fin m → ℝ
  w : Fin 3 → Fin n → ℝ
  z : Fin n → ℝ
  zbar : Fin n → ℝ

/-- The primal update shared by both engines:
`x -= T * zbar; x = xp.where(x < 0, 0, x)`. -/
noncomputable def primalUpdate {n : ℕ} (T x zbar : Fin n → ℝ) : Fin n → ℝ :=
  fun i => if x i - T i * zbar i < 0 then 0 else x i - T i * zbar i

/-- The pre-prox dual data candidate `y + S_A * (A x + s)` of the PDHG loop
(`y_plus` before the prox line). -/
noncomputable def pdhgYCand {m n : ℕ} (A : Matrix (Fin m) (Fin n) ℝ)
    (s S_A : Fin m → ℝ) (x : Fin n → ℝ) (y : Fin m → ℝ) : Fin m → ℝ :=
  fun j => y j + S_A j * (A.mulVec x j + s j)

/-- One iteration of the PDHG loop body, translated line by line from the
`Run PDHG` cell. -/
noncomputable def pdhgStep {n m : ℕ} (A : Matrix (Fin m) (Fin n) ℝ)
    (G : Fin 3 → Matrix (Fin n) (Fin n) ℝ) (s d S_A : Fin m → ℝ)
    (S_G β : ℝ) (T : Fin n → ℝ) (st : PDHGState n m) : PDHGState n m :=
  let x2 := primalUpdate T st.x st.zbar
  let y_plus := fun j => poissonProxCode (pdhgYCand A s S_A x2 st.y j) (S_A j) (d j)
  let w_plus := fun kk i =>
    tvProxCode β (fun kk2 => st.w kk2 i + S_G * gApply G x2 kk2 i) kk
  let dz := fun i =>
    A.transpose.mulVec (fun j => y_plus j - st.y j) i +
      gAdjoint G (fun kk i2 => w_plus kk i2 - st.w kk i2) i
  { x := x2
    y := y_plus
    w := w_plus
    z := fun i => st.z i + dz i
    zbar := fun i => st.z i + dz i + dz i }

/-- PDHG initialization: `x` from the warm start, `y = 1 - d / (A x + s)`,
`w = 0`, `z = zbar = A.adjoint(y) + op_G.adjoint(w)`. -/
noncomputable def pdhgInit {n m : ℕ} (A : Matrix (Fin m) (Fin n) ℝ)
    (G : Fin 3 → Matrix (Fin n) (Fin n) ℝ) (s d : Fin m → ℝ)
    (x0 : Fin n → ℝ) : PDHGState n m :=
  let y := fun j => 1 - d j / (A.mulVec x0 j + s j)
  let w := fun (_ : Fin 3) (_ : Fin n) => (0 : ℝ)
  let z := fun i => A.transpose.mulVec y i + gAdjoint G w i
  { x := x0, y := y, w := w, z := z, zbar := z }

/-! ## The LM-SPDHG engine (stochastic, list-mode, partitioned) -/

/-- The LM-SPDHG state: the primal image, one dual list per data subset
(subset `k` holds `me k` events), the gradient dual and the running
`z`/`zbar` images. -/
structure LMState (ns n : ℕ) (me : Fin ns → ℕ) where
  x : Fin n → ℝ
  ys : (k : Fin ns) → Fin (me k) → ℝ
  w : Fin 3 → Fin n → ℝ
  z : Fin n → ℝ
  zbar : Fin n → ℝ

/-- The data-subset dual update of the LM-SPDHG inner loop:
`y_plus = ys[k] + S_A_lm[k] * (A_k(x) + s_k)` followed by the Poisson prox
with counts `mu[sl]`. -/
noncomputable def lmYPlus {ns n : ℕ} {me : Fin ns → ℕ}
    (A : (k : Fin ns) → Matrix (Fin (me k)) (Fin n) ℝ)
    (sc : (k : Fin ns) → Fin (me k) → ℝ)
    (Slm : (k : Fin ns) → Fin (me k) → ℝ)
    (μ : (k : Fin ns) → Fin (me k) → ℝ) (k : Fin ns)
    (x : Fin n → ℝ) (ysk : Fin (me k) → ℝ) : Fin (me k) → ℝ :=
  fun e => poissonProxCode (ysk e + Slm k e * ((A k).mulVec x e + sc k e))
    (Slm k e) (μ k e)

/-- The data-subset dual contribution
`dz = lm_op[k].adjoint((y_plus - ys[k]) / mu[sl])`. -/
noncomputable def lmDataDz {ns n : ℕ} {me : Fin ns → ℕ}
    (A : (k : Fin ns) → Matrix (Fin (me k)) (Fin n) ℝ)
    (sc Slm μ : (k : Fin ns) → Fin (me k) → ℝ) (k : Fin ns)
    (x : Fin n → ℝ) (ysk : Fin (me k) → ℝ) : Fin n → ℝ :=
  fun i => (A k).transpose.mulVec
    (fun e => (lmYPlus A sc Slm μ k x ysk e - ysk e) / μ k e) i

/-- The gradient-block dual update of the LM-SPDHG inner loop (identical code
lines to the PDHG `w_plus` update). -/
noncomputable def lmWPlus {n : ℕ} (G : Fin 3 → Matrix (Fin n) (Fin n) ℝ)
    (S_G β : ℝ) (x : Fin n → ℝ) (w : Fin 3 → Fin n → ℝ) : Fin 3 → Fin n → ℝ :=
  fun kk i => tvProxCode β (fun kk2 => w kk2 i + S_G * gApply G x kk2 i) kk

/-- The gradient-block dual contribution `dz = op_G.adjoint(w_plus - w_lm)`. -/
noncomputable def lmGradDz {n : ℕ} (G : Fin 3 → Matrix (Fin n) (Fin n) ℝ)
    (S_G β : ℝ) (x : Fin n → ℝ) (w : Fin 3 → Fin n → ℝ) : Fin n → ℝ :=
  fun i => gAdjoint G (fun kk i2 => lmWPlus G S_G β x w kk i2 - w kk i2) i

/-- One inner step of the LM-SPDHG loop for block index `kb` drawn from the
epoch's permutation of `0..2*ns-1`: the primal update, then either a
data-subset dual update (`kb < num_subsets`) or the gradient dual update,
then `z = z + dz; zbar = z + dz / p` with `p = p_a` in the data branch and
`p = p_g` in the gradient branch. -/
noncomputable def lmStep {ns n : ℕ} {me : Fin ns → ℕ}
    (A : (k : Fin ns) → Matrix (Fin (me k)) (Fin n) ℝ)
    (G : Fin 3 → Matrix (Fin n) (Fin n) ℝ)
    (sc Slm μ : (k : Fin ns) → Fin (me k) → ℝ)
    (S_G β pa pg : ℝ) (T : Fin n → ℝ) (kb : ℕ)
    (st : LMState ns n me) : LMState ns n me :=
  let x2 := primalUpdate T st.x st.zbar
  if h : kb < ns then
    let k : Fin ns := ⟨kb, h⟩
    let dz := lmDataDz A sc Slm μ k x2 (st.ys k)
    { x := x2
      ys := Function.update st.ys k (lmYPlus A sc Slm μ k x2 (st.ys k))
      w := st.w
      z := fun i => st.z i + dz i
      zbar := fun i => st.z i + dz i + dz i / pa }
  else
    let dz := lmGradDz G S_G β x2 st.w
    { x := x2
      ys := st.ys
      w := lmWPlus G S_G β x2 st.w
      z := fun i => st.z i + dz i
      zbar := fun i => st.z i + dz i + dz i / pg }

/-- A run of LM-SPDHG inner steps over a given block sequence (the
concatenation of the per-epoch permutations). -/
noncomputable def lmRun {ns n : ℕ} {me : Fin ns → ℕ}
    (A : (k : Fin ns) → Matrix (Fin (me k)) (Fin n) ℝ)
    (G : Fin 3 → Matrix (Fin n) (Fin n) ℝ)
    (sc Slm μ : (k : Fin ns) → Fin (me k) → ℝ)
    (S_G β pa pg : ℝ) (T : Fin n → ℝ) (ks : List ℕ)
    (st : LMState ns n me) : LMState ns n me :=
  ks.foldl (fun acc kb => lmStep A G sc Slm μ S_G β pa pg T kb acc) st

/-! ## Component equations and linearity helpers -/

/-- `mulVec` distributes over an entrywise difference of vectors. -/
lemma mulVec_sub_app {a b : ℕ} (M : Matrix (Fin a) (Fin b) ℝ)
    (u v : Fin b → ℝ) (i : Fin a) :
    M.mulVec (fun j => u j - v j) i = M.mulVec u i - M.mulVec v i := by
  simp [Matrix.mulVec, Matrix.dotProduct, mul_sub, Finset.sum_sub_distrib]

/-- The gradient adjoint distributes over an entrywise difference. -/
lemma gAdjoint_sub_app {n : ℕ} (G : Fin 3 → Matrix (Fin n) (Fin n) ℝ)
    (u v : Fin 3 → Fin n → ℝ) (i : Fin n) :
    gAdjoint G (fun kk i2 => u kk i2 - v kk i2) i =
      gAdjoint G u i - gAdjoint G v i := by
  unfold gAdjoint
  rw [← Finset.sum_sub_distrib]
  exact Finset.sum_congr rfl fun kk _ => mulVec_sub_app _ _ _ _

/-- The projected primal update is non-negative at every voxel. -/
lemma primalUpdate_nonneg {n : ℕ} (T x zbar : Fin n → ℝ) (i : Fin n) :
    0 ≤ primalUpdate T x zbar i := by
  unfold primalUpdate
  by_cases h : x i - T i * zbar i < 0
  · rw [if_pos h]
  · rw [if_neg h]
    exact not_lt.mp h

lemma pdhgStep_x {n m : ℕ} (A : Matrix (Fin m) (Fin n) ℝ)
    (G : Fin 3 → Matrix (Fin n) (Fin n) ℝ) (s d S_A : Fin m → ℝ)
    (S_G β : ℝ) (T : Fin n → ℝ) (st : PDHGState n m) :
    (pdhgStep A G s d S_A S_G β T st).x = primalUpdate T st.x st.zbar := rfl

lemma pdhgStep_y {n m : ℕ} (A : Matrix (Fin m) (Fin n) ℝ)
    (G : Fin 3 → Matrix (Fin n) (Fin n) ℝ) (s d S_A : Fin m → ℝ)
    (S_G β : ℝ) (T : Fin n → ℝ) (st : PDHGState n m) :
    (pdhgStep A G s d S_A S_G β T st).y = fun j =>
      poissonProxCode (pdhgYCand A s S_A (primalUpdate T st.x st.zbar) st.y j)
        (S_A j) (d j) := rfl

lemma pdhgStep_z {n m : ℕ} (A : Matrix (Fin m) (Fin n) ℝ)
    (G : Fin 3 → Matrix (Fin n) (Fin n) ℝ) (s d S_A : Fin m → ℝ)
    (S_G β : ℝ) (T : Fin n → ℝ) (st : PDHGState n m) (i : Fin n) :
    (pdhgStep A G s d S_A S_G β T st).z i = st.z i +
      (A.transpose.mulVec
          (fun j => (pdhgStep A G s d S_A S_G β T st).y j - st.y j) i +
        gAdjoint G
          (fun kk i2 => (pdhgStep A G s d S_A S_G β T st).w kk i2 - st.w kk i2)
          i) := rfl

lemma lmStep_x {ns n : ℕ} {me : Fin ns → ℕ}
    (A : (k : Fin ns) → Matrix (Fin (me k)) (Fin n) ℝ)
    (G : Fin 3 → Matrix (Fin n) (Fin n) ℝ)
    (sc Slm μ : (k : Fin ns) → Fin (me k) → ℝ)
    (S_G β pa pg : ℝ) (T : Fin n → ℝ) (kb : ℕ) (st : LMState ns n me) :
    (lmStep A G sc Slm μ S_G β pa pg T kb st).x = primalUpdate T st.x st.zbar := by
  unfold lmStep
  by_cases h : kb < ns
  · rw [dif_pos h]
  · rw [dif_neg h]

lemma lmStep_ys_data {ns n : ℕ} {me : Fin ns → ℕ}
    (A : (k : Fin ns) → Matrix (Fin (me k)) (Fin n) ℝ)
    (G : Fin 3 → Matrix (Fin n) (Fin n) ℝ)
    (sc Slm μ : (k : Fin ns) → Fin (me k) → ℝ)
    (S_G β pa pg : ℝ) (T : Fin n → ℝ) (kb : ℕ) (st : LMState ns n me)
    (h : kb < ns) :
    (lmStep A G sc Slm μ S_G β pa pg T kb st).ys ⟨kb, h⟩ =
      lmYPlus A sc Slm μ ⟨kb, h⟩ (primalUpdate T st.x st.zbar)
        (st.ys ⟨kb, h⟩) := by
  unfold lmStep
  rw [dif_pos h]
  exact Function.update_same _ _ _

lemma lmStep_z_data {ns n : ℕ} {me : Fin ns → ℕ}
    (A : (k : Fin ns) → Matrix (Fin (me k)) (Fin n) ℝ)
    (G : Fin 3 → Matrix (Fin n) (Fin n) ℝ)
    (sc Slm μ : (k : Fin ns) → Fin (me k) → ℝ)
    (S_G β pa pg : ℝ) (T : Fin n → ℝ) (kb : ℕ) (st : LMState ns n me)
    (h : kb < ns) (i : Fin n) :
    (lmStep A G sc Slm μ S_G β pa pg T kb st).z i =
      st.z i + lmDataDz A sc Slm μ ⟨kb, h⟩ (primalUpdate T st.x st.zbar)
        (st.ys ⟨kb, h⟩) i := by
  unfold lmStep
  rw [dif_pos h]

lemma lmStep_zbar_data {ns n : ℕ} {me : Fin ns → ℕ}
    (A : (k : Fin ns) → Matrix (Fin (me k)) (Fin n) ℝ)
    (G : Fin 3 → Matrix (Fin n) (Fin n) ℝ)
    (sc Slm μ : (k : Fin ns) → Fin (me k) → ℝ)
    (S_G β pa pg : ℝ) (T : Fin n → ℝ) (kb : ℕ) (st : LMState ns n me)
    (h : kb < ns) (i : Fin n) :
    (lmStep A G sc Slm μ S_G β pa pg T kb st).zbar i =
      st.z i + lmDataDz A sc Slm μ ⟨kb, h⟩ (primalUpdate T st.x st.zbar)
          (st.ys ⟨kb, h⟩) i +
        lmDataDz A sc Slm μ ⟨kb, h⟩ (primalUpdate T st.x st.zbar)
          (st.ys ⟨kb, h⟩) i / pa := by
  unfold lmStep
  rw [dif_pos h]

lemma lmStep_z_grad {ns n : ℕ} {me : Fin ns → ℕ}
    (A : (k : Fin ns) → Matrix (Fin (me k)) (Fin n) ℝ)
    (G : Fin 3 → Matrix (Fin n) (Fin n) ℝ)
    (sc Slm μ : (k : Fin ns) → Fin (me k) → ℝ)
    (S_G β pa pg : ℝ) (T : Fin n → ℝ) (kb : ℕ) (st : LMState ns n me)
    (h : ¬ kb < ns) (i : Fin n) :
    (lmStep A G sc Slm μ S_G β pa pg T kb st).z i =
      st.z i + lmGradDz G S_G β (primalUpdate T st.x st.zbar) st.w i := by
  unfold lmStep
  rw [dif_neg h]

lemma lmStep_zbar_grad {ns n : ℕ} {me : Fin ns → ℕ}
    (A : (k : Fin ns) → Matrix (Fin (me k)) (Fin n) ℝ)
    (G : Fin 3 → Matrix (Fin n) (Fin n) ℝ)
    (sc Slm μ : (k : Fin ns) → Fin (me k) → ℝ)
    (S_G β pa pg : ℝ) (T : Fin n → ℝ) (kb : ℕ) (st : LMState ns n me)
    (h : ¬ kb < ns) (i : Fin n) :
    (lmStep A G sc Slm μ S_G β pa pg T kb st).zbar i =
      st.z i + lmGradDz G S_G β (primalUpdate T st.x st.zbar) st.w i +
        lmGradDz G S_G β (primalUpdate T st.x st.zbar) st.w i / pg := by
  unfold lmStep
  rw [dif_neg h]

/-! ## Claim theorems for the engine loops -/

/-- C1: in both engines the dual data update applies the Poisson data
conjugate prox of the spec, element-wise and in closed form: the PDHG update
sends the candidate `y + S_A·(A x + s)` through
`0.5·(y + 1 − sqrt((y−1)² + 4·S·d))` with step entry `S_A j` and count entry
`d j`, and the LM-SPDHG data-subset update does the same with step
`S_A_lm[k]` and count `μ` restricted to the subset. -/
theorem dual_update_is_poisson_prox :
    (∀ (n m : ℕ) (A : Matrix (Fin m) (Fin n) ℝ)
      (G : Fin 3 → Matrix (Fin n) (Fin n) ℝ) (s d S_A : Fin m → ℝ)
      (S_G β : ℝ) (T : Fin n → ℝ) (st : PDHGState n m) (j : Fin m),
      (pdhgStep A G s d S_A S_G β T st).y j =
        poissonProxSpec (pdhgYCand A s S_A (primalUpdate T st.x st.zbar) st.y j)
          (S_A j) (d j)) ∧
    (∀ (ns n : ℕ) (me : Fin ns → ℕ)
      (A : (k : Fin ns) → Matrix (Fin (me k)) (Fin n) ℝ)
      (G : Fin 3 → Matrix (Fin n) (Fin n) ℝ)
      (sc Slm μ : (k : Fin ns) → Fin (me k) → ℝ)
      (S_G β pa pg : ℝ) (T : Fin n → ℝ) (kb : ℕ) (st : LMState ns n me)
      (h : kb < ns) (e : Fin (me ⟨kb, h⟩)),
      (lmStep A G sc Slm μ S_G β pa pg T kb st).ys ⟨kb, h⟩ e =
        poissonProxSpec
          (st.ys ⟨kb, h⟩ e + Slm ⟨kb, h⟩ e *
            ((A ⟨kb, h⟩).mulVec (primalUpdate T st.x st.zbar) e + sc ⟨kb, h⟩ e))
          (Slm ⟨kb, h⟩ e) (μ ⟨kb, h⟩ e)) := by
  constructor
  · intro n m A G s d S_A S_G β T st j
    rfl
  · intro ns n me A G sc Slm μ S_G β pa pg T kb st h e
    rw [lmStep_ys_data A G sc Slm μ S_G β pa pg T kb st h]
    rfl

/-- C3: every LM-SPDHG inner step, after computing its block's dual
contribution `dz`, sets `z` to `z + dz` and `zbar` to the updated `z` plus
`dz / p`, where `p` is the selection probability of the block just updated:
`p_a` when a data subset was drawn (`kb < num_subsets`), `p_g` when the
gradient block was drawn. -/
theorem lm_z_zbar_update :
    ∀ (ns n : ℕ) (me : Fin ns → ℕ)
      (A : (k : Fin ns) → Matrix (Fin (me k)) (Fin n) ℝ)
      (G : Fin 3 → Matrix (Fin n) (Fin n) ℝ)
      (sc Slm μ : (k : Fin ns) → Fin (me k) → ℝ)
      (S_G β pa pg : ℝ) (T : Fin n → ℝ) (kb : ℕ) (st : LMState ns n me)
      (i : Fin n),
      (∀ h : kb < ns,
        (lmStep A G sc Slm μ S_G β pa pg T kb st).z i =
          st.z i + lmDataDz A sc Slm μ ⟨kb, h⟩ (primalUpdate T st.x st.zbar)
            (st.ys ⟨kb, h⟩) i ∧
        (lmStep A G sc Slm μ S_G β pa pg T kb st).zbar i =
          (st.z i + lmDataDz A sc Slm μ ⟨kb, h⟩ (primalUpdate T st.x st.zbar)
              (st.ys ⟨kb, h⟩) i) +
            lmDataDz A sc Slm μ ⟨kb, h⟩ (primalUpdate T st.x st.zbar)
              (st.ys ⟨kb, h⟩) i / pa) ∧
      (¬ kb < ns →
        (lmStep A G sc Slm μ S_G β pa pg T kb st).z i =
          st.z i + lmGradDz G S_G β (primalUpdate T st.x st.zbar) st.w i ∧
        (lmStep A G sc Slm μ S_G β pa pg T kb st).zbar i =
          (st.z i + lmGradDz G S_G β (primalUpdate T st.x st.zbar) st.w i) +
            lmGradDz G S_G β (primalUpdate T st.x st.zbar) st.w i / pg) := by
  intro ns n me A G sc Slm μ S_G β pa pg T kb st i
  constructor
  · intro h
    exact ⟨lmStep_z_data A G sc Slm μ S_G β pa pg T kb st h i,
      lmStep_zbar_data A G sc Slm μ S_G β pa pg T kb st h i⟩
  · intro h
    exact ⟨lmStep_z_grad A G sc Slm μ S_G β pa pg T kb st h i,
      lmStep_zbar_grad A G sc Slm μ S_G β pa pg T kb st h i⟩

/-- C4: in both engines the primal image stays element-wise non-negative:
the seed is non-negative and every iteration's primal update is a projection
onto the non-negative orthant, so the image after any number of PDHG
iterations, or after any sequence of LM-SPDHG inner steps, is non-negative
at every voxel. -/
theorem primal_nonneg_invariant :
    (∀ (n m : ℕ) (A : Matrix (Fin m) (Fin n) ℝ)
      (G : Fin 3 → Matrix (Fin n) (Fin n) ℝ) (s d S_A : Fin m → ℝ)
      (S_G β : ℝ) (T : Fin n → ℝ) (st : PDHGState n m) (N : ℕ),
      (∀ i, 0 ≤ st.x i) →
      ∀ i, 0 ≤ ((pdhgStep A G s d S_A S_G β T)^[N] st).x i) ∧
    (∀ (ns n : ℕ) (me : Fin ns → ℕ)
      (A : (k : Fin ns) → Matrix (Fin (me k)) (Fin n) ℝ)
      (G : Fin 3 → Matrix (Fin n) (Fin n) ℝ)
      (sc Slm μ : (k : Fin ns) → Fin (me k) → ℝ)
      (S_G β pa pg : ℝ) (T : Fin n → ℝ) (ks : List ℕ) (st : LMState ns n me),
      (∀ i, 0 ≤ st.x i) →
      ∀ i, 0 ≤ (lmRun A G sc Slm μ S_G β pa pg T ks st).x i) := by
  constructor
  · intro n m A G s d S_A S_G β T st N hx i
    cases N with
    | zero => exact hx i
    | succ N =>
      rw [Function.iterate_succ_apply', pdhgStep_x]
      exact primalUpdate_nonneg _ _ _ i
  · intro ns n me A G sc Slm μ S_G β pa pg T ks
    induction ks with
    | nil => exact fun st hx i => hx i
    | cons kb ks ih =>
      intro st hx i
      have hstep : ∀ i2, 0 ≤ (lmStep A G sc Slm μ S_G β pa pg T kb st).x i2 := by
        intro i2
        rw [lmStep_x]
        exact primalUpdate_nonneg _ _ _ i2
      exact ih (lmStep A G sc Slm μ S_G β pa pg T kb st) hstep i

/-- C9: the running state of the full-batch PDHG loop satisfies
`z = A.adjoint(y) + op_G.adjoint(w)` after initialization and after every
iteration: the incremental update
`z += A.adjoint(y_plus - y) + op_G.adjoint(w_plus - w)` preserves the
relation exactly over exact arithmetic. -/
theorem pdhg_z_invariant :
    ∀ (n m : ℕ) (A : Matrix (Fin m) (Fin n) ℝ)
      (G : Fin 3 → Matrix (Fin n) (Fin n) ℝ) (s d S_A : Fin m → ℝ)
      (S_G β : ℝ) (T : Fin n → ℝ) (x0 : Fin n → ℝ) (N : ℕ) (i : Fin n),
      ((pdhgStep A G s d S_A S_G β T)^[N] (pdhgInit A G s d x0)).z i =
        A.transpose.mulVec
            (((pdhgStep A G s d S_A S_G β T)^[N] (pdhgInit A G s d x0)).y) i +
          gAdjoint G
            (((pdhgStep A G s d S_A S_G β T)^[N] (pdhgInit A G s d x0)).w) i := by
  intro n m A G s d S_A S_G β T x0 N i
  induction N with
  | zero => rfl
  | succ N ih =>
    simp only [Function.iterate_succ_apply']
    rw [pdhgStep_z, mulVec_sub_app, gAdjoint_sub_app, ih]
    ring

/-- C10: for non-negative step and count entries the Poisson prox output is
at most `1`, hence after every dual data update the updated data dual
variable is at most `1` at every entry — in PDHG for `y`, in LM-SPDHG for
the `y_i` of the data subset just updated. -/
theorem dual_data_update_le_one :
    (∀ y S d : ℝ, 0 ≤ S → 0 ≤ d → poissonProxCode y S d ≤ 1) ∧
    (∀ (n m : ℕ) (A : Matrix (Fin m) (Fin n) ℝ)
      (G : Fin 3 → Matrix (Fin n) (Fin n) ℝ) (s d S_A : Fin m → ℝ)
      (S_G β : ℝ) (T : Fin n → ℝ) (st : PDHGState n m),
      (∀ j, 0 ≤ S_A j) → (∀ j, 0 ≤ d j) →
      ∀ j, (pdhgStep A G s d S_A S_G β T st).y j ≤ 1) ∧
    (∀ (ns n : ℕ) (me : Fin ns → ℕ)
      (A : (k : Fin ns) → Matrix (Fin (me k)) (Fin n) ℝ)
      (G : Fin 3 → Matrix (Fin n) (Fin n) ℝ)
      (sc Slm μ : (k : Fin ns) → Fin (me k) → ℝ)
      (S_G β pa pg : ℝ) (T : Fin n → ℝ) (kb : ℕ) (st : LMState ns n me)
      (h : kb < ns),
      (∀ e, 0 ≤ Slm ⟨kb, h⟩ e) → (∀ e, 0 ≤ μ ⟨kb, h⟩ e) →
      ∀ e, (lmStep A G sc Slm μ S_G β pa pg T kb st).ys ⟨kb, h⟩ e ≤ 1) := by
  refine ⟨poissonProxCode_le_one, ?_, ?_⟩
  · intro n m A G s d S_A S_G β T st hS hd j
    rw [pdhgStep_y]
    exact poissonProxCode_le_one _ _ _ (hS j) (hd j)
  · intro ns n me A G sc Slm μ S_G β pa pg T kb st h hS hμ e
    rw [lmStep_ys_data A G sc Slm μ S_G β pa pg T kb st h]
    exact poissonProxCode_le_one _ _ _ (hS e) (hμ e)
